import Mathlib

set_option synthInstance.maxSize 512

/-!
Verification of the schedule-derivation core of the svitlo telegram bot
(`scraper.py`).

Modelling conventions (shallow embedding):

* A `datetime` in the configured fixed timezone is modelled as an `Int`
  counting wall-clock microseconds from an arbitrary midnight epoch.
  All datetimes the code builds live in the single configured zone, and
  Python's tz-aware `datetime + timedelta` is wall-clock arithmetic, so
  addition, subtraction and comparison become plain integer operations.
* A calendar date (the result of parsing a `"YYYY-MM-DD"` string with
  `_date_to_dt`) is modelled as an `Int` day index; `_date_to_dt` maps it
  to the midnight instant `d * DAY`.
* A Python `dict` (`SlotMap`, the raw cache, JSON objects) is modelled as
  an association list; lookup takes the first matching key, which agrees
  with `dict` semantics since `dict` keys are unique.
* `float` epoch seconds (`time.time()`) are modelled as `Int` seconds.
* `timedelta.total_seconds() // 60` on half-hour-aligned operands and the
  `(... + 59) // 60` minute ceiling are modelled with exact integer floor
  division on microseconds; the double-precision rounding of
  `total_seconds()` cannot move any of the floor boundaries involved.
* `hashlib.sha256(...).hexdigest()` is an external library primitive; it
  is modelled as an explicit `digest : String → String` parameter applied
  to the exact string the code builds.
-/

/-- 30 minutes in microseconds (`HALF_HOUR = timedelta(minutes=30)`). -/
def HALF_HOUR : Int := 30 * 60 * 1000000

/-- 24 hours in microseconds (`timedelta(days=1)`). -/
def DAY : Int := 24 * 60 * 60 * 1000000

/-- One hour in microseconds. -/
def HOUR_US : Int := 60 * 60 * 1000000

/-- One minute in microseconds. -/
def MINUTE_US : Int := 60 * 1000000

/-- One second in microseconds. -/
def SECOND_US : Int := 1000000

/-- `OffInterval` from `scraper.py` (frozen dataclass): one contiguous outage.
The source class is named `Interval` (that name is taken by Mathlib) and its field `end` is a Lean keyword, so it is called `stop` here;
it is exclusive, as in the source. -/
structure OffInterval where
  start : Int
  stop : Int
deriving DecidableEq

/-- A `SlotMap`: the Python dict `{"00:00": 1, "00:30": 2, ...}` as an
association list from half-hour key to status code. -/
abbrev SlotMap := List (String × Int)

/-- First-match association-list lookup: Python `dict.get(k)` (keys of a
real `dict` are unique, so first match is the match). -/
def alist {β : Type} (m : List (String × β)) (k : String) : Option β :=
  (m.find? (fun p => p.1 == k)).map Prod.snd

/-- `int(slots.get(key, 1))`: the effective status of a key, defaulting to
1 (power on) when the key is absent.  Values are already `int`s here
(they come out of `_extract_slots`), so `int(...)` is the identity. -/
def eff (m : SlotMap) (k : String) : Int :=
  (alist m k).getD 1

/-- `_date_to_dt`: a parsed `"YYYY-MM-DD"` date (day index `d`) mapped to
the midnight instant of that day. -/
def dateToDt (d : Int) : Int := d * DAY

/-- Decimal digit character, `Char.ofNat (48 + d)` for `d < 10`. -/
def digitChar (d : Nat) : Char := Char.ofNat (48 + d)

/-- Fuel-indexed digit expansion (structural recursion on the fuel, so
that the kernel can evaluate it; the fuel `n + 1` always suffices since
`n / 10 < n` for `n ≥ 10`). -/
def natDigitsCore : Nat → Nat → List Char
  | 0, _ => []
  | fuel + 1, n =>
    if n < 10 then [digitChar n]
    else natDigitsCore fuel (n / 10) ++ [digitChar (n % 10)]

/-- The decimal digits of a natural number, most significant first:
the semantics of Python `str` on a non-negative `int` (and of an
`f"{n}"` format field). -/
def natDigits (n : Nat) : List Char := natDigitsCore (n + 1) n

/-- Python `str` of a non-negative integer. -/
def natRepr (n : Nat) : String := ⟨natDigits n⟩

/-- Python `str` of an `int`: a minus sign followed by the digits of the
absolute value for negative numbers, plain digits otherwise.  This is the
semantics of the `f"...={status}"` format field in the source. -/
def intStr (i : Int) : String :=
  if i < 0 then "-" ++ natRepr (-i).toNat else natRepr i.toNat

/-- Python `f"{n:02d}"` for a non-negative value: zero-padded to (at
least) two digits. -/
def pad2 (n : Nat) : String :=
  if n < 10 then "0" ++ natRepr n else natRepr n

/-- `_time_str_from_dt`: `f"{dt.hour:02d}:{dt.minute:02d}"`.  The wall
fields `hour` and `minute` of an instant are recovered from its
microseconds-since-midnight-epoch value. -/
def timeStr (t : Int) : String :=
  let tod := (t.emod DAY).toNat
  pad2 (tod / 3600000000) ++ ":" ++ pad2 (tod % 3600000000 / 60000000)

/-- The half-hour key of slot index `k` (`0 ↦ "00:00"`, …, `47 ↦ "23:30"`):
`_time_str_from_dt` applied to the `k`-th half-hour boundary. -/
def keyStr (k : Nat) : String := timeStr ((k : Int) * HALF_HOUR)

/-- `_round_down_to_half_hour`: `dt.replace(minute = 0 if dt.minute < 30
else 30, second=0, microsecond=0)`, i.e. the instant floored to its
enclosing half-hour wall boundary.  Midnights are multiples of `DAY` in
this model and `HALF_HOUR` divides `DAY`, so this is flooring to a
multiple of `HALF_HOUR`. -/
def _round_down_to_half_hour (t : Int) : Int :=
  t - t.emod HALF_HOUR

/-- The `while cur < end` loop of `_iter_half_hours`, stepping by
`HALF_HOUR` from `cur` while below `stop`. -/
def iterHalfHoursFrom (stop cur : Int) : List Int :=
  if cur < stop then cur :: iterHalfHoursFrom stop (cur + HALF_HOUR)
  else []
termination_by (stop - cur).toNat
decreasing_by
  simp only [HALF_HOUR]
  omega

/-- `_iter_half_hours(day_start)`: the instants `00:00 .. 23:30` of the
day starting at `day_start`. -/
def _iter_half_hours (day_start : Int) : List Int :=
  iterHalfHoursFrom (day_start + DAY) day_start

/-- The half-hour progression `c, c + HALF_HOUR, …` of length `n`;
`_iter_half_hours day_start = hhList day_start 48` (proved below).
Used as the structural-recursion view of the slot walk. -/
def hhList (c : Int) : Nat → List Int
  | 0 => []
  | n + 1 => c :: hhList (c + HALF_HOUR) n

/-- The `for i, t in enumerate(times)` loop of `_slots_to_off_intervals`,
carrying the `in_off` flag and the `off_start` optional instant.  The
source appends to a shared list; here each step prepends the intervals it
appends.  The fourth loop clause (`i == len(times) - 1 and in_off`) fires
exactly when the remaining list is a singleton and the flag is still set
after the two transition clauses, closing at `dayEnd`.  When the source
reads `off_start` it is never `None` (the flag guards it); `getD 0`
renders that read total. -/
def offLoop (slots : SlotMap) (dayEnd : Int) :
    List Int → Bool → Option Int → List OffInterval
  | [], _, _ => []
  | t :: rest, in_off, off_start =>
    let status := eff slots (timeStr t)
    match (status == 2 : Bool), in_off with
    | true, false =>
      -- on→off transition: open an interval at t
      if rest.isEmpty then [⟨t, dayEnd⟩]
      else offLoop slots dayEnd rest true (some t)
    | true, true =>
      if rest.isEmpty then [⟨off_start.getD 0, dayEnd⟩]
      else offLoop slots dayEnd rest true off_start
    | false, true =>
      -- off→on transition: close the open interval at t
      ⟨off_start.getD 0, t⟩ :: offLoop slots dayEnd rest false none
    | false, false => offLoop slots dayEnd rest false none

/-- `_slots_to_off_intervals(date_str, slots)`: consecutive status-2 slots
of the day become intervals. -/
def _slots_to_off_intervals (d : Int) (slots : SlotMap) : List OffInterval :=
  offLoop slots (dateToDt d + DAY) (_iter_half_hours (dateToDt d)) false none

/-- `_total_minutes`: `total += int((it.end - it.start).total_seconds() // 60)`.
`total_seconds()` is the exact duration in seconds; dividing by 60 and
flooring is floor division of the microsecond duration by `MINUTE_US`. -/
def _total_minutes (intervals : List OffInterval) : Int :=
  intervals.foldl (fun total it => total + (it.stop - it.start).fdiv MINUTE_US) 0

/-- `_find_next_outage`: sort today's and tomorrow's intervals by start
ascending (`sorted(..., key=lambda x: x.start)`, a stable sort) and
return the start of the first one strictly after `now`, if any. -/
def _find_next_outage (now : Int) (today_off tomorrow_off : List OffInterval) :
    Option Int :=
  let all_intervals :=
    (today_off ++ tomorrow_off).mergeSort (fun a b => a.start ≤ b.start)
  (all_intervals.find? (fun it => now < it.start)).map (fun it => it.start)

/-- `_is_now_has_power`: look up the slot that covers `now` rounded down
to 30 minutes; outside the day span of `date_today`, assume power on. -/
def _is_now_has_power (now : Int) (date_today : Int) (slots_today : SlotMap) :
    Bool :=
  let now_rounded := _round_down_to_half_hour now
  let today_start := dateToDt date_today
  if today_start ≤ now_rounded ∧ now_rounded < today_start + DAY then
    eff slots_today (timeStr now_rounded) == 1
  else
    -- day mismatch: safe fallback, assume power on
    true

/-- `"|".join(parts)`: concatenation with a single `"|"` between
consecutive parts. -/
def joinBar : List String → String
  | [] => ""
  | [p] => p
  | p :: q :: rest => p ++ "|" ++ joinBar (q :: rest)

/-- `_slots_normalized_for_hash(date_str, slots)`: one `"{date_str}
{key}={status}"` part per half-hour boundary of the day, joined with
`"|"`.  The date is passed both as its parsed day index `d` (the source
re-parses `date_str` with `_date_to_dt`) and as its literal text
`dateStr`. -/
def _slots_normalized_for_hash (d : Int) (dateStr : String) (slots : SlotMap) :
    String :=
  joinBar ((_iter_half_hours (dateToDt d)).map
    (fun t => dateStr ++ " " ++ timeStr t ++ "=" ++ intStr (eff slots (timeStr t))))

/-- The exact string `_hash_schedule` feeds to `hashlib.sha256`: the two
normalized day serializations joined by `"||"`. -/
def _hash_input (dT : Int) (dTStr : String) (sT : SlotMap)
    (dM : Int) (dMStr : String) (sM : SlotMap) : String :=
  _slots_normalized_for_hash dT dTStr sT ++ "||" ++
    _slots_normalized_for_hash dM dMStr sM

/-- `_hash_schedule`: the SHA-256 hex digest of `_hash_input`.  The
digest itself (`hashlib.sha256(s.encode("utf-8")).hexdigest()`) is an
external primitive, modelled as the explicit function argument
`digest`. -/
def _hash_schedule (digest : String → String)
    (dT : Int) (dTStr : String) (sT : SlotMap)
    (dM : Int) (dMStr : String) (sM : SlotMap) : String :=
  digest (_hash_input dT dTStr sT dM dMStr sM)

/-- A raw region block of the upstream JSON payload, with the fields the
core reads: `r.get("cpu")`, `r.get("schedule")`, `r.get("name_ua")`.
`schedule` maps group → date → half-hour key → slot value; a slot value
is recorded as `some i` when Python `int(v)` yields `i` and `none` when
`int(v)` raises.  A missing or null `schedule`/group/date dict is
modelled as the empty list (the source normalizes those with
`.get(..., {}) or {}`). -/
structure RegionBlock where
  cpu : Option String
  schedule : List (String × List (String × List (String × Option Int)))
  name_ua : Option String
deriving DecidableEq

/-- The upstream JSON payload: `date_today`, `date_tomorrow` and the list
of region blocks. -/
structure Payload where
  date_today : Option String
  date_tomorrow : Option String
  regions : List RegionBlock
deriving DecidableEq

/-- `_extract_region_block`: the first region block whose `cpu` equals
the requested identifier, or the `ValueError` (`RegionNotFound`) message
if none matches. -/
def _extract_region_block (payload : Payload) (region_cpu : String) :
    Except String RegionBlock :=
  match payload.regions.find? (fun r => r.cpu == some region_cpu) with
  | some r => .ok r
  | none => .error ("Region " ++ region_cpu ++ " not found in API response")

/-- The raw `region_block["schedule"][group][date]` dict of
`_extract_slots`, with missing levels collapsing to the empty dict. -/
def daySlots (rb : RegionBlock) (group_name date_str : String) :
    List (String × Option Int) :=
  ((alist ((alist rb.schedule group_name).getD []) date_str).getD [])

/-- `_extract_slots`: normalize the day's slot dict to `int` values,
silently dropping entries whose value `int(v)` would raise. -/
def _extract_slots (rb : RegionBlock) (group_name date_str : String) : SlotMap :=
  (daySlots rb group_name date_str).filterMap
    (fun p => p.2.map (fun i => (p.1, i)))

/-- `CACHE_TTL_SECONDS` (config default 600; the TTL is configuration and
its exact value is irrelevant to the cache laws proved below). -/
def CACHE_TTL_SECONDS : Int := 600

/-- The `_RAW_CACHE` dict: region key → (expiry epoch second, payload). -/
abbrev Cache := List (String × (Int × Payload))

/-- Python dict assignment `d[k] = v`: overwrite in place if the key is
present, otherwise append. -/
def cacheSet (c : Cache) (k : String) (v : Int × Payload) : Cache :=
  if (c.find? (fun p => p.1 == k)).isSome then
    c.map (fun p => if p.1 == k then (k, v) else p)
  else c ++ [(k, v)]

/-- `_fetch_raw`, with its effects made explicit: `now` is `time.time()`,
`cache` is `_RAW_CACHE` before the call, and `fetch_result` is the
outcome of the `aiohttp` GET + `raise_for_status` + `json()` sequence
(`Except.error` for timeout / non-success status / malformed body, the
`FeedUnavailable` class of failures).  Returns the call's result and the
cache after the call.  A live cache hit returns before the network code
runs; a failed fetch propagates before the cache write runs. -/
def _fetch_raw (now : Int) (cache : Cache) (region_cpu : String)
    (fetch_result : Except String Payload) : Except String Payload × Cache :=
  let fetched : Except String Payload × Cache :=
    match fetch_result with
    | .error e => (.error e, cache)
    | .ok data =>
        (.ok data, cacheSet cache region_cpu (now + CACHE_TTL_SECONDS, data))
  match alist cache region_cpu with
  | some cached => if now < cached.1 then (.ok cached.2, cache) else fetched
  | none => fetched

/-- The `next_outage_in_minutes` computation of `get_schedule`:
`int(((next_outage_start - now).total_seconds() + 59) // 60)` floored at
zero with `max(delta_min, 0)`.  In microseconds the inner expression is
`⌊(Δ + 59·10^6) / (60·10^6)⌋`. -/
def next_outage_in_minutes (now next_outage_start : Int) : Int :=
  max ((next_outage_start - now + 59 * SECOND_US).fdiv MINUTE_US) 0

/-- Value recovered from a digit string (left inverse of `natDigits`,
used only to prove the serialization injective). -/
def digitsVal (l : List Char) : Nat :=
  l.foldl (fun a c => 10 * a + (c.toNat - 48)) 0

/-- A string not containing the `"|"` separator of
`_slots_normalized_for_hash`. -/
def barFree (s : String) : Prop := '|' ∉ s.data

/-- The number of the day's 48 half-hour slots whose effective status is
2 ("off"): the quantity `_total_minutes` of the derived intervals
accounts for. -/
def offSlotCount (d : Int) (slots : SlotMap) : Nat :=
  (_iter_half_hours (dateToDt d)).countP (fun t => eff slots (timeStr t) == 2)

/-! ## Basic lemmas about the digit printer -/

theorem natDigitsCore_congr : ∀ (f1 f2 n : Nat), n < f1 → n < f2 →
    natDigitsCore f1 n = natDigitsCore f2 n := by
  intro f1
  induction f1 with
  | zero => intro f2 n h1 _; omega
  | succ f1 ih =>
    intro f2 n h1 h2
    cases f2 with
    | zero => omega
    | succ f2 =>
      simp only [natDigitsCore]
      split
      · rfl
      · rename_i hn
        have hd : n / 10 < n := Nat.div_lt_self (by omega) (by omega)
        rw [ih f2 (n / 10) (by omega) (by omega)]

/-- The recurrence `natDigits` satisfies (what `str` does digit by digit). -/
theorem natDigits_eq (n : Nat) :
    natDigits n =
      if n < 10 then [digitChar n]
      else natDigits (n / 10) ++ [digitChar (n % 10)] := by
  unfold natDigits
  conv_lhs => simp only [natDigitsCore]
  split
  · rfl
  · rename_i hn
    have hd : n / 10 < n := Nat.div_lt_self (by omega) (by omega)
    rw [natDigitsCore_congr n (n / 10 + 1) (n / 10) (by omega) (by omega)]

theorem digitsVal_append (l : List Char) (c : Char) :
    digitsVal (l ++ [c]) = 10 * digitsVal l + (c.toNat - 48) := by
  simp [digitsVal, List.foldl_append]

theorem digitChar_toNat : ∀ d : Nat, d < 10 → (digitChar d).toNat = 48 + d := by
  decide

theorem digitsVal_natDigits (n : Nat) : digitsVal (natDigits n) = n := by
  induction n using Nat.strong_induction_on with
  | _ n ih =>
    rw [natDigits_eq]
    split
    · rename_i h
      simp [digitsVal, digitChar_toNat n h]
    · rename_i h
      rw [digitsVal_append, ih (n / 10) (Nat.div_lt_self (by omega) (by omega)),
        digitChar_toNat (n % 10) (by omega)]
      omega

theorem natDigits_injective {a b : Nat} (h : natDigits a = natDigits b) : a = b := by
  have := digitsVal_natDigits a
  rw [h, digitsVal_natDigits] at this
  omega

/-! ## Injectivity of the decimal serialization used in the fingerprint -/

theorem natDigits_chars (n : Nat) :
    ∀ c ∈ natDigits n, ∃ d, d < 10 ∧ c = digitChar d := by
  induction n using Nat.strong_induction_on with
  | _ n ih =>
    rw [natDigits_eq]
    split
    · rename_i h
      intro c hc
      simp only [List.mem_singleton] at hc
      exact ⟨n, h, hc⟩
    · rename_i h
      intro c hc
      rcases List.mem_append.mp hc with hc | hc
      · exact ih (n / 10) (Nat.div_lt_self (by omega) (by omega)) c hc
      · simp only [List.mem_singleton] at hc
        exact ⟨n % 10, by omega, hc⟩

theorem natDigits_ne_nil (n : Nat) : natDigits n ≠ [] := by
  rw [natDigits_eq]
  split <;> simp

theorem natRepr_injective {a b : Nat} (h : natRepr a = natRepr b) : a = b := by
  apply natDigits_injective
  have : (natRepr a).data = (natRepr b).data := by rw [h]
  exact this

theorem digitChar_ne_minus : ∀ d : Nat, d < 10 → digitChar d ≠ '-' := by decide

theorem digitChar_ne_bar : ∀ d : Nat, d < 10 → digitChar d ≠ '|' := by decide

theorem intStr_injective {a b : Int} (h : intStr a = intStr b) : a = b := by
  have head_digit : ∀ n : Nat, ∀ l, natDigits n = '-' :: l → False := by
    intro n l hl
    have : '-' ∈ natDigits n := by rw [hl]; exact List.mem_cons_self _ _
    rcases natDigits_chars n '-' this with ⟨d, hd, hc⟩
    exact digitChar_ne_minus d hd hc.symm
  unfold intStr at h
  split at h <;> split at h
  · rename_i ha hb
    have hdata : ('-' :: natDigits (-a).toNat) = ('-' :: natDigits (-b).toNat) := by
      have := congrArg String.data h
      simpa [String.data_append, natRepr] using this
    have h2 : natDigits (-a).toNat = natDigits (-b).toNat := by
      injection hdata
    have := natDigits_injective h2
    omega
  · rename_i ha hb
    exfalso
    have hdata : ('-' :: natDigits (-a).toNat) = natDigits b.toNat := by
      have := congrArg String.data h
      simpa [String.data_append, natRepr] using this
    exact head_digit _ _ hdata.symm
  · rename_i ha hb
    exfalso
    have hdata : natDigits a.toNat = '-' :: natDigits (-b).toNat := by
      have := congrArg String.data h
      simpa [String.data_append, natRepr] using this
    exact head_digit _ _ hdata
  · rename_i ha hb
    have := natRepr_injective h
    omega

/-! ## `"|"`-freeness and injectivity of `"|".join` -/

theorem barFree_append {a b : String} (ha : barFree a) (hb : barFree b) :
    barFree (a ++ b) := by
  simp only [barFree, String.data_append, List.mem_append] at *
  tauto

theorem barFree_natRepr (n : Nat) : barFree (natRepr n) := by
  simp only [barFree, natRepr]
  intro hmem
  rcases natDigits_chars n '|' hmem with ⟨d, hd, hc⟩
  exact digitChar_ne_bar d hd hc.symm

theorem barFree_intStr (i : Int) : barFree (intStr i) := by
  unfold intStr
  split
  · exact barFree_append (by show ('|' : Char) ∉ ("-" : String).data; decide)
      (barFree_natRepr _)
  · exact barFree_natRepr _

theorem barFree_pad2 (n : Nat) : barFree (pad2 n) := by
  unfold pad2
  split
  · exact barFree_append (by show ('|' : Char) ∉ ("0" : String).data; decide)
      (barFree_natRepr _)
  · exact barFree_natRepr _

theorem barFree_timeStr (t : Int) : barFree (timeStr t) := by
  unfold timeStr
  exact barFree_append (barFree_append (barFree_pad2 _)
    (by show ('|' : Char) ∉ (":" : String).data; decide)) (barFree_pad2 _)

/-- Cancellation around a separator character occurring in neither prefix. -/
theorem cancel_sep {c : Char} : ∀ (a b x y : List Char), c ∉ a → c ∉ b →
    a ++ c :: x = b ++ c :: y → a = b ∧ x = y := by
  intro a
  induction a with
  | nil =>
    intro b x y _ hb h
    cases b with
    | nil => simpa using h
    | cons e b =>
      simp only [List.nil_append, List.cons_append, List.cons.injEq] at h
      exact absurd (h.1 ▸ List.mem_cons_self e b) hb
  | cons d a ih =>
    intro b x y ha hb h
    cases b with
    | nil =>
      simp only [List.cons_append, List.nil_append, List.cons.injEq] at h
      exact absurd (h.1 ▸ List.mem_cons_self d a) (h.1 ▸ ha)
    | cons e b =>
      simp only [List.cons_append, List.cons.injEq] at h
      obtain ⟨rfl, h2⟩ := h
      have := ih b x y (fun hm => ha (List.mem_cons_of_mem _ hm))
        (fun hm => hb (List.mem_cons_of_mem _ hm)) h2
      exact ⟨by rw [this.1], this.2⟩

/-- `"|".join` is injective on equally-long lists of `"|"`-free parts. -/
theorem joinBar_inj : ∀ (ps qs : List String), ps.length = qs.length →
    (∀ p ∈ ps, barFree p) → (∀ q ∈ qs, barFree q) →
    joinBar ps = joinBar qs → ps = qs := by
  intro ps
  induction ps with
  | nil =>
    intro qs hlen _ _ _
    cases qs with
    | nil => rfl
    | cons q qs => simp at hlen
  | cons p ps ih =>
    intro qs hlen hps hqs hj
    cases qs with
    | nil => simp at hlen
    | cons q qs =>
      cases ps with
      | nil =>
        cases qs with
        | nil => simpa [joinBar] using hj
        | cons q2 qs2 => simp at hlen
      | cons p2 ps2 =>
        cases qs with
        | nil => simp at hlen
        | cons q2 qs2 =>
          simp only [joinBar] at hj
          have hdata := congrArg String.data hj
          simp only [String.data_append] at hdata
          simp only [List.append_assoc, List.singleton_append] at hdata
          have hc := cancel_sep p.data q.data (joinBar (p2 :: ps2)).data
            (joinBar (q2 :: qs2)).data (hps p (by simp)) (hqs q (by simp)) hdata
          have hpq : p = q := String.ext hc.1
          have hjj : joinBar (p2 :: ps2) = joinBar (q2 :: qs2) := String.ext hc.2
          have := ih (q2 :: qs2) (by simpa using hlen)
            (fun x hx => hps x (List.mem_cons_of_mem _ hx))
            (fun x hx => hqs x (List.mem_cons_of_mem _ hx)) hjj
          rw [hpq, this]

/-- Splicing the two day serializations with `"||"` is `"|".join` with an
empty part in the middle. -/
theorem joinBar_doubleBar : ∀ (A B : List String), A ≠ [] → B ≠ [] →
    joinBar A ++ "||" ++ joinBar B = joinBar (A ++ "" :: B) := by
  intro A
  induction A with
  | nil => intro B h _; exact absurd rfl h
  | cons a A ih =>
    intro B _ hB
    cases A with
    | nil =>
      cases B with
      | nil => exact absurd rfl hB
      | cons b B' =>
        show a ++ "||" ++ joinBar (b :: B') = joinBar (a :: "" :: b :: B')
        simp only [joinBar]
        apply String.ext
        simp [String.data_append]
    | cons a2 A' =>
      have step := ih B (by simp) hB
      show (a ++ "|" ++ joinBar (a2 :: A')) ++ "||" ++ joinBar B =
        joinBar (a :: a2 :: (A' ++ "" :: B))
      simp only [joinBar]
      rw [show a2 :: (A' ++ "" :: B) = (a2 :: A') ++ "" :: B from rfl] at *
      rw [← step]
      apply String.ext
      simp [String.data_append]

/-! ## The half-hour walk -/

theorem HALF_HOUR_pos : (0 : Int) < HALF_HOUR := by norm_num [HALF_HOUR]

theorem DAY_eq_48 : DAY = 48 * HALF_HOUR := by norm_num [DAY, HALF_HOUR]

/-- The `while` loop of `_iter_half_hours` takes exactly `n` steps from
`c` to `c + n * HALF_HOUR`. -/
theorem iterHalfHoursFrom_eq_hhList :
    ∀ (n : Nat) (c : Int), iterHalfHoursFrom (c + n * HALF_HOUR) c = hhList c n := by
  intro n
  induction n with
  | zero =>
    intro c
    rw [iterHalfHoursFrom]
    simp [hhList]
  | succ n ih =>
    intro c
    rw [iterHalfHoursFrom]
    have hlt : c < c + (n + 1 : Nat) * HALF_HOUR := by
      have := HALF_HOUR_pos
      push_cast
      nlinarith
    rw [if_pos hlt, show c + ((n + 1 : Nat) : Int) * HALF_HOUR =
      (c + HALF_HOUR) + (n : Int) * HALF_HOUR by push_cast; ring]
    rw [ih (c + HALF_HOUR)]
    rfl

/-- `_iter_half_hours` produces the 48 half-hour boundaries of the day. -/
theorem _iter_half_hours_eq (s : Int) : _iter_half_hours s = hhList s 48 := by
  unfold _iter_half_hours
  rw [show s + DAY = s + ((48 : Nat) : Int) * HALF_HOUR by push_cast; rw [DAY_eq_48]]
  exact iterHalfHoursFrom_eq_hhList 48 s

/-- `_slots_to_off_intervals` through the structural view of the walk. -/
theorem _slots_to_off_intervals_eq (d : Int) (slots : SlotMap) :
    _slots_to_off_intervals d slots =
      offLoop slots (dateToDt d + DAY) (hhList (dateToDt d) 48) false none := by
  unfold _slots_to_off_intervals
  rw [_iter_half_hours_eq]

theorem mem_hhList : ∀ (n : Nat) (c t : Int),
    t ∈ hhList c n ↔ ∃ k : Nat, k < n ∧ t = c + (k : Int) * HALF_HOUR := by
  intro n
  induction n with
  | zero => intro c t; simp [hhList]
  | succ n ih =>
    intro c t
    simp only [hhList, List.mem_cons, ih (c + HALF_HOUR) t]
    constructor
    · rintro (rfl | ⟨k, hk, rfl⟩)
      · exact ⟨0, by omega, by ring⟩
      · exact ⟨k + 1, by omega, by push_cast; ring⟩
    · rintro ⟨k, hk, rfl⟩
      cases k with
      | zero => left; simp
      | succ k => right; exact ⟨k, by omega, by push_cast; ring⟩

theorem hhList_pairwise : ∀ (n : Nat) (c : Int), (hhList c n).Pairwise (· < ·) := by
  intro n
  induction n with
  | zero => intro c; simp [hhList]
  | succ n ih =>
    intro c
    refine List.Pairwise.cons ?_ (ih (c + HALF_HOUR))
    intro t ht
    rcases (mem_hhList n (c + HALF_HOUR) t).mp ht with ⟨k, hk, rfl⟩
    have := HALF_HOUR_pos
    nlinarith [Int.natCast_nonneg k]

theorem hhList_bounds (n : Nat) (c : Int) :
    ∀ t ∈ hhList c n, c ≤ t ∧ t < c + (n : Int) * HALF_HOUR := by
  intro t ht
  rcases (mem_hhList n c t).mp ht with ⟨k, hk, rfl⟩
  have h1 := HALF_HOUR_pos
  have h2 : ((k : Int)) < (n : Int) := by exact_mod_cast hk
  constructor
  · nlinarith [Int.natCast_nonneg k]
  · nlinarith

/-! ## Wall-time keys -/

theorem timeStr_add_day_mul (t d : Int) : timeStr (t + d * DAY) = timeStr t := by
  have h0 : (t + DAY * d) % DAY = t % DAY := Int.add_mul_emod_self_left t DAY d
  have h : (t + d * DAY).emod DAY = t.emod DAY := by
    rw [mul_comm]
    exact h0
  simp only [timeStr, h]

theorem timeStr_dateToDt (d x : Int) : timeStr (dateToDt d + x) = timeStr x := by
  rw [dateToDt, add_comm, timeStr_add_day_mul]

/-- The key the walk reads at slot `k` of any day is the day-independent
half-hour key `keyStr k`. -/
theorem timeStr_slot (d : Int) (k : Nat) :
    timeStr (dateToDt d + (k : Int) * HALF_HOUR) = keyStr k := by
  rw [timeStr_dateToDt]
  rfl

/-! ## Structure of the interval walk -/

theorem offLoop_nil (slots : SlotMap) (dayEnd : Int) (in_off : Bool)
    (off_start : Option Int) : offLoop slots dayEnd [] in_off off_start = [] := rfl

theorem offLoop_cons (slots : SlotMap) (dayEnd t : Int) (rest : List Int)
    (in_off : Bool) (off_start : Option Int) :
    offLoop slots dayEnd (t :: rest) in_off off_start =
      match (eff slots (timeStr t) == 2 : Bool), in_off with
      | true, false =>
        if rest.isEmpty then [⟨t, dayEnd⟩]
        else offLoop slots dayEnd rest true (some t)
      | true, true =>
        if rest.isEmpty then [⟨off_start.getD 0, dayEnd⟩]
        else offLoop slots dayEnd rest true off_start
      | false, true => ⟨off_start.getD 0, t⟩ :: offLoop slots dayEnd rest false none
      | false, false => offLoop slots dayEnd rest false none := rfl

/-- Master invariant of the `_slots_to_off_intervals` loop: on a strictly
increasing list of instants below `dayEnd`, with a well-formed open-state,
the produced intervals are strictly separated (`stop < start` of a later
one), each is non-degenerate, every start is a walked instant (or the
pending open start) and every stop is a walked instant or `dayEnd`. -/
theorem offLoop_master : ∀ (ts : List Int) (slots : SlotMap) (dayEnd : Int)
    (in_off : Bool) (off_start : Option Int),
    ts.Pairwise (· < ·) → (∀ t ∈ ts, t < dayEnd) →
    (in_off = true → ∃ s, off_start = some s ∧ ∀ t ∈ ts, s < t) →
    (offLoop slots dayEnd ts in_off off_start).Pairwise
        (fun a b => a.stop < b.start) ∧
    (∀ iv ∈ offLoop slots dayEnd ts in_off off_start, iv.start < iv.stop) ∧
    (∀ iv ∈ offLoop slots dayEnd ts in_off off_start,
      (iv.start ∈ ts ∨ off_start = some iv.start) ∧
        (iv.stop ∈ ts ∨ iv.stop = dayEnd)) := by
  intro ts
  induction ts with
  | nil =>
    intro slots dayEnd in_off off_start _ _ _
    simp [offLoop_nil]
  | cons t rest ih =>
    intro slots dayEnd in_off off_start hpw hlt hoff
    have hhead : ∀ x ∈ rest, t < x := (List.pairwise_cons.mp hpw).1
    have hpw' : rest.Pairwise (· < ·) := (List.pairwise_cons.mp hpw).2
    have hltt : t < dayEnd := hlt t (List.mem_cons_self t rest)
    have hlt' : ∀ x ∈ rest, x < dayEnd := fun x hx => hlt x (List.mem_cons_of_mem _ hx)
    cases hbit : (eff slots (timeStr t) == 2 : Bool) with
    | true =>
      cases in_off with
      | false =>
        -- on → off: open at t
        by_cases hre : rest.isEmpty
        · have : rest = [] := List.isEmpty_iff.mp hre
          subst this
          simp only [offLoop_cons, hbit, List.isEmpty_nil, if_true]
          refine ⟨List.pairwise_singleton _ _, ?_, ?_⟩
          · intro iv hiv
            simp only [List.mem_singleton] at hiv
            subst hiv
            exact hltt
          · intro iv hiv
            simp only [List.mem_singleton] at hiv
            subst hiv
            exact ⟨Or.inl (List.mem_cons_self _ _), Or.inr rfl⟩
        · simp only [offLoop_cons, hbit, hre, if_false]
          have hinv : (true : Bool) = true → ∃ s, (some t : Option Int) = some s ∧
              ∀ x ∈ rest, s < x := fun _ => ⟨t, rfl, hhead⟩
          obtain ⟨P1, P2, P3⟩ := ih slots dayEnd true (some t) hpw' hlt' hinv
          refine ⟨P1, P2, ?_⟩
          intro iv hiv
          obtain ⟨hs, he⟩ := P3 iv hiv
          constructor
          · rcases hs with hs | hs
            · exact Or.inl (List.mem_cons_of_mem _ hs)
            · have : iv.start = t := by injection hs.symm
              exact Or.inl (this ▸ List.mem_cons_self _ _)
          · rcases he with he | he
            · exact Or.inl (List.mem_cons_of_mem _ he)
            · exact Or.inr he
      | true =>
        obtain ⟨s, hsome, hsl⟩ := hoff rfl
        subst hsome
        have hst : s < t := hsl t (List.mem_cons_self _ _)
        by_cases hre : rest.isEmpty
        · have : rest = [] := List.isEmpty_iff.mp hre
          subst this
          simp only [offLoop_cons, hbit, List.isEmpty_nil, if_true, Option.getD_some]
          refine ⟨List.pairwise_singleton _ _, ?_, ?_⟩
          · intro iv hiv
            simp only [List.mem_singleton] at hiv
            subst hiv
            exact lt_trans hst hltt
          · intro iv hiv
            simp only [List.mem_singleton] at hiv
            subst hiv
            exact ⟨Or.inr rfl, Or.inr rfl⟩
        · simp only [offLoop_cons, hbit, hre, if_false]
          have hinv : (true : Bool) = true → ∃ s', (some s : Option Int) = some s' ∧
              ∀ x ∈ rest, s' < x := fun _ => ⟨s, rfl, fun x hx => hsl x (List.mem_cons_of_mem _ hx)⟩
          obtain ⟨P1, P2, P3⟩ := ih slots dayEnd true (some s) hpw' hlt' hinv
          refine ⟨P1, P2, ?_⟩
          intro iv hiv
          obtain ⟨hs, he⟩ := P3 iv hiv
          constructor
          · rcases hs with hs | hs
            · exact Or.inl (List.mem_cons_of_mem _ hs)
            · exact Or.inr hs
          · rcases he with he | he
            · exact Or.inl (List.mem_cons_of_mem _ he)
            · exact Or.inr he
    | false =>
      cases in_off with
      | true =>
        -- off → on: close at t
        obtain ⟨s, hsome, hsl⟩ := hoff rfl
        subst hsome
        have hst : s < t := hsl t (List.mem_cons_self _ _)
        simp only [offLoop_cons, hbit, Option.getD_some]
        obtain ⟨P1, P2, P3⟩ := ih slots dayEnd false none hpw' hlt' (by simp)
        refine ⟨?_, ?_, ?_⟩
        · refine List.Pairwise.cons ?_ P1
          intro iv hiv
          obtain ⟨hs, _⟩ := P3 iv hiv
          rcases hs with hs | hs
          · exact hhead iv.start hs
          · exact absurd hs (by simp)
        · intro iv hiv
          rcases List.mem_cons.mp hiv with rfl | hiv
          · exact hst
          · exact P2 iv hiv
        · intro iv hiv
          rcases List.mem_cons.mp hiv with rfl | hiv
          · exact ⟨Or.inr rfl, Or.inl (List.mem_cons_self _ _)⟩
          · obtain ⟨hs, he⟩ := P3 iv hiv
            constructor
            · rcases hs with hs | hs
              · exact Or.inl (List.mem_cons_of_mem _ hs)
              · exact absurd hs (by simp)
            · rcases he with he | he
              · exact Or.inl (List.mem_cons_of_mem _ he)
              · exact Or.inr he
      | false =>
        simp only [offLoop_cons, hbit]
        obtain ⟨P1, P2, P3⟩ := ih slots dayEnd false none hpw' hlt' (by simp)
        refine ⟨P1, P2, ?_⟩
        intro iv hiv
        obtain ⟨hs, he⟩ := P3 iv hiv
        constructor
        · rcases hs with hs | hs
          · exact Or.inl (List.mem_cons_of_mem _ hs)
          · exact absurd hs (by simp)
        · rcases he with he | he
          · exact Or.inl (List.mem_cons_of_mem _ he)
          · exact Or.inr he

/-- If the status at the last walked instant is "off", the loop's output
ends with an interval closed exactly at `dayEnd`. -/
theorem offLoop_last_stop : ∀ (ts : List Int) (slots : SlotMap) (dayEnd : Int)
    (in_off : Bool) (off_start : Option Int) (tl : Int),
    ts.getLast? = some tl → (eff slots (timeStr tl) == 2) = true →
    ∃ R s, offLoop slots dayEnd ts in_off off_start = R ++ [⟨s, dayEnd⟩] := by
  intro ts
  induction ts with
  | nil => intro slots dayEnd in_off off_start tl h; simp at h
  | cons t rest ih =>
    intro slots dayEnd in_off off_start tl hlast hbit
    cases rest with
    | nil =>
      simp only [List.getLast?_singleton, Option.some.injEq] at hlast
      subst hlast
      cases in_off with
      | false =>
        refine ⟨[], t, ?_⟩
        simp [offLoop_cons, hbit]
      | true =>
        refine ⟨[], off_start.getD 0, ?_⟩
        simp [offLoop_cons, hbit]
    | cons r rest' =>
      have hlast' : (r :: rest').getLast? = some tl := by
        rwa [List.getLast?_cons_cons] at hlast
      have hne : ((r :: rest').isEmpty) = false := rfl
      cases hb : (eff slots (timeStr t) == 2 : Bool) with
      | true =>
        cases in_off with
        | false =>
          obtain ⟨R, s, hR⟩ := ih slots dayEnd true (some t) tl hlast' hbit
          exact ⟨R, s, by simp [offLoop_cons, hb, hne, hR]⟩
        | true =>
          obtain ⟨R, s, hR⟩ := ih slots dayEnd true off_start tl hlast' hbit
          exact ⟨R, s, by simp [offLoop_cons, hb, hne, hR]⟩
      | false =>
        cases in_off with
        | true =>
          obtain ⟨R, s, hR⟩ := ih slots dayEnd false none tl hlast' hbit
          refine ⟨⟨off_start.getD 0, t⟩ :: R, s, ?_⟩
          simp [offLoop_cons, hb, hR]
        | false =>
          obtain ⟨R, s, hR⟩ := ih slots dayEnd false none tl hlast' hbit
          exact ⟨R, s, by simp [offLoop_cons, hb, hR]⟩

/-- With the flag already set and a pending start `s`, the first interval
the loop emits starts at `s`. -/
theorem offLoop_head_off : ∀ (ts : List Int) (slots : SlotMap) (dayEnd s : Int),
    ts ≠ [] → ∃ e R, offLoop slots dayEnd ts true (some s) = ⟨s, e⟩ :: R := by
  intro ts
  induction ts with
  | nil => intro slots dayEnd s h; exact absurd rfl h
  | cons t rest ih =>
    intro slots dayEnd s _
    cases hb : (eff slots (timeStr t) == 2 : Bool) with
    | true =>
      cases rest with
      | nil => exact ⟨dayEnd, [], by simp [offLoop_cons, hb]⟩
      | cons r rest' =>
        obtain ⟨e, R, hR⟩ := ih slots dayEnd s (by simp)
        refine ⟨e, R, ?_⟩
        have hne : ((r :: rest').isEmpty) = false := rfl
        simp [offLoop_cons, hb, hne, hR]
    | false =>
      exact ⟨t, offLoop slots dayEnd rest false none, by simp [offLoop_cons, hb]⟩

/-! ## Shifting a day by whole days -/

theorem hhList_shift : ∀ (n : Nat) (c δ : Int),
    hhList (c + δ) n = (hhList c n).map (· + δ) := by
  intro n
  induction n with
  | zero => intro c δ; rfl
  | succ n ih =>
    intro c δ
    show (c + δ) :: hhList (c + δ + HALF_HOUR) n = (c + δ) :: (hhList (c + HALF_HOUR) n).map (· + δ)
    rw [show c + δ + HALF_HOUR = (c + HALF_HOUR) + δ by ring, ih (c + HALF_HOUR) δ]

theorem offLoop_shift : ∀ (ts : List Int) (slots : SlotMap) (dayEnd : Int)
    (in_off : Bool) (off_start : Option Int) (d : Int),
    (in_off = true → ∃ s, off_start = some s) →
    offLoop slots (dayEnd + d * DAY) (ts.map (· + d * DAY)) in_off
        (off_start.map (· + d * DAY)) =
      (offLoop slots dayEnd ts in_off off_start).map
        (fun iv => ⟨iv.start + d * DAY, iv.stop + d * DAY⟩) := by
  intro ts
  induction ts with
  | nil => intro slots dayEnd in_off off_start d _; rfl
  | cons t rest ih =>
    intro slots dayEnd in_off off_start d hwf
    have hbit : (eff slots (timeStr (t + d * DAY)) == 2 : Bool) =
        (eff slots (timeStr t) == 2 : Bool) := by rw [timeStr_add_day_mul]
    have hemp : ((rest.map (· + d * DAY)).isEmpty) = rest.isEmpty := by
      cases rest <;> rfl
    cases hb : (eff slots (timeStr t) == 2 : Bool) with
    | true =>
      cases in_off with
      | false =>
        by_cases hre : rest.isEmpty
        · have : rest = [] := List.isEmpty_iff.mp hre
          subst this
          simp [offLoop_cons, hb, hbit]
        · simp only [List.map_cons, offLoop_cons, hbit, hb, hemp, hre, if_false]
          have := ih slots dayEnd true (some t) d (fun _ => ⟨t, rfl⟩)
          simpa using this
      | true =>
        obtain ⟨s, hs⟩ := hwf rfl
        subst hs
        by_cases hre : rest.isEmpty
        · have : rest = [] := List.isEmpty_iff.mp hre
          subst this
          simp [offLoop_cons, hb, hbit]
        · simp only [List.map_cons, offLoop_cons, hbit, hb, hemp, hre, if_false]
          have := ih slots dayEnd true (some s) d (fun _ => ⟨s, rfl⟩)
          simpa using this
    | false =>
      cases in_off with
      | true =>
        obtain ⟨s, hs⟩ := hwf rfl
        subst hs
        simp only [List.map_cons, offLoop_cons, hbit, hb, Option.map_some,
          Option.getD_some, List.map]
        have := ih slots dayEnd false none d (by simp)
        simpa using this
      | false =>
        simp only [List.map_cons, offLoop_cons, hbit, hb]
        have := ih slots dayEnd false none d (by simp)
        simpa using this

/-- The derived intervals of day `d` are the day-0 intervals shifted by
`d` whole days. -/
theorem _slots_to_off_intervals_shift (d : Int) (slots : SlotMap) :
    _slots_to_off_intervals d slots =
      (_slots_to_off_intervals 0 slots).map
        (fun iv => ⟨iv.start + d * DAY, iv.stop + d * DAY⟩) := by
  rw [_slots_to_off_intervals_eq, _slots_to_off_intervals_eq]
  have h1 : dateToDt d = 0 + d * DAY := by simp [dateToDt]
  have h2 : dateToDt 0 = 0 := by simp [dateToDt]
  rw [h1, h2]
  rw [hhList_shift 48 0 (d * DAY)]
  rw [show (0 : Int) + d * DAY + DAY = DAY + d * DAY by ring]
  have := offLoop_shift (hhList 0 48) slots DAY false none d (by simp)
  simpa using this

/-! ## Total minutes -/

theorem _total_minutes_aux :
    ∀ (l : List OffInterval) (a : Int),
      l.foldl (fun total it => total + (it.stop - it.start).fdiv MINUTE_US) a =
        a + _total_minutes l := by
  intro l
  induction l with
  | nil => intro a; simp [_total_minutes]
  | cons iv l ih =>
    intro a
    simp only [_total_minutes, List.foldl_cons] at *
    rw [ih (a + (iv.stop - iv.start).fdiv MINUTE_US),
      ih (0 + (iv.stop - iv.start).fdiv MINUTE_US)]
    ring

theorem _total_minutes_cons (iv : OffInterval) (l : List OffInterval) :
    _total_minutes (iv :: l) =
      (iv.stop - iv.start).fdiv MINUTE_US + _total_minutes l := by
  show List.foldl _ _ (iv :: l) = _
  rw [List.foldl_cons, _total_minutes_aux]
  simp

theorem fdiv_mul_half_hour (k : Int) : (k * HALF_HOUR).fdiv MINUTE_US = 30 * k := by
  have h1 : k * HALF_HOUR = (30 * k) * MINUTE_US := by
    simp only [HALF_HOUR, MINUTE_US]; ring
  rw [h1, Int.fdiv_eq_ediv _ (by norm_num [MINUTE_US]),
    Int.mul_ediv_cancel _ (by norm_num [MINUTE_US])]

/-- Minute accounting of the walk: starting power-on, the total minutes of
the produced intervals is 30 per off slot; starting `j` half-hours into an
open outage, an extra `30 j` is accounted to the interval that will close. -/
theorem offLoop_minutes (slots : SlotMap) : ∀ (n : Nat) (c : Int),
    (_total_minutes (offLoop slots (c + (n : Int) * HALF_HOUR) (hhList c n) false none) =
      30 * ((hhList c n).countP (fun t => eff slots (timeStr t) == 2) : Int)) ∧
    (∀ j : Nat, 0 < n →
      _total_minutes (offLoop slots (c + (n : Int) * HALF_HOUR) (hhList c n) true
          (some (c - (j : Int) * HALF_HOUR))) =
        30 * (j : Int) +
          30 * ((hhList c n).countP (fun t => eff slots (timeStr t) == 2) : Int)) := by
  intro n
  induction n with
  | zero =>
    intro c
    constructor
    · simp [hhList, offLoop_nil, _total_minutes]
    · intro j h; omega
  | succ n ih =>
    intro c
    have hde : c + ((n + 1 : Nat) : Int) * HALF_HOUR =
        (c + HALF_HOUR) + (n : Int) * HALF_HOUR := by push_cast; ring
    have hcons : hhList c (n + 1) = c :: hhList (c + HALF_HOUR) n := rfl
    constructor
    · -- state: power on, no pending interval
      cases hb : (eff slots (timeStr c) == 2 : Bool) with
      | true =>
        cases n with
        | zero =>
          rw [hcons]
          simp only [offLoop_cons, hb, hhList, List.isEmpty_nil, if_true]
          rw [_total_minutes_cons]
          simp only [_total_minutes, List.foldl_nil, List.countP_cons, hb]
          rw [show c + ((0 + 1 : Nat) : Int) * HALF_HOUR - c = (1 : Int) * HALF_HOUR by
            push_cast; ring, fdiv_mul_half_hour]
          simp [hhList]
        | succ m =>
          rw [hcons]
          have hne : ((hhList (c + HALF_HOUR) (m + 1)).isEmpty) = false := rfl
          simp only [offLoop_cons, hb, hne]
          rw [if_neg (show ¬(false = true) by simp)]
          have h1 := (ih (c + HALF_HOUR)).2 1 (by omega)
          rw [show c + HALF_HOUR - ((1 : Nat) : Int) * HALF_HOUR = c by push_cast; ring]
            at h1
          rw [hde, h1]
          simp only [List.countP_cons, hb]
          push_cast
          ring
      | false =>
        rw [hcons]
        simp only [offLoop_cons, hb]
        have h1 := (ih (c + HALF_HOUR)).1
        rw [hde, h1]
        simp only [List.countP_cons, hb]
        push_cast
        ring
    · -- state: inside an outage opened j half-hours ago
      intro j _
      cases hb : (eff slots (timeStr c) == 2 : Bool) with
      | true =>
        cases n with
        | zero =>
          rw [hcons]
          simp only [offLoop_cons, hb, hhList, List.isEmpty_nil, if_true,
            Option.getD_some]
          rw [_total_minutes_cons]
          simp only [_total_minutes, List.foldl_nil, List.countP_cons, hb]
          rw [show c + ((0 + 1 : Nat) : Int) * HALF_HOUR - (c - (j : Int) * HALF_HOUR) =
            ((j : Int) + 1) * HALF_HOUR by push_cast; ring, fdiv_mul_half_hour]
          simp [hhList]
          ring
        | succ m =>
          rw [hcons]
          have hne : ((hhList (c + HALF_HOUR) (m + 1)).isEmpty) = false := rfl
          simp only [offLoop_cons, hb, hne]
          rw [if_neg (show ¬(false = true) by simp)]
          have h1 := (ih (c + HALF_HOUR)).2 (j + 1) (by omega)
          rw [show c + HALF_HOUR - ((j + 1 : Nat) : Int) * HALF_HOUR =
            c - (j : Int) * HALF_HOUR by push_cast; ring] at h1
          rw [hde, h1]
          simp only [List.countP_cons, hb]
          push_cast
          ring
      | false =>
        rw [hcons]
        simp only [offLoop_cons, hb, Option.getD_some]
        rw [_total_minutes_cons]
        have h1 := (ih (c + HALF_HOUR)).1
        rw [hde, h1]
        rw [show c - (c - (j : Int) * HALF_HOUR) = (j : Int) * HALF_HOUR by ring,
          fdiv_mul_half_hour]
        simp only [List.countP_cons, hb]
        push_cast
        ring

/-! ## Next-outage selection -/

/-- In a list sorted by ascending start, a successful `find?` returns an
element with minimal start among those satisfying the predicate. -/
theorem sorted_find?_min :
    ∀ (L : List OffInterval) (p : OffInterval → Bool) (x : OffInterval),
      L.Pairwise (fun a b => a.start ≤ b.start) → L.find? p = some x →
      ∀ y ∈ L, p y = true → x.start ≤ y.start := by
  intro L
  induction L with
  | nil => intro p x _ h; simp at h
  | cons a L ih =>
    intro p x hpw hfind y hy hpy
    have hhead := (List.pairwise_cons.mp hpw).1
    have htail := (List.pairwise_cons.mp hpw).2
    rw [List.find?_cons] at hfind
    rcases hpa : p a with _ | _
    · rw [hpa] at hfind
      rcases List.mem_cons.mp hy with rfl | hy
      · rw [hpy] at hpa; exact absurd hpa (by simp)
      · exact ih p x htail hfind y hy hpy
    · rw [hpa] at hfind
      simp only [Option.some.injEq] at hfind
      subst hfind
      rcases List.mem_cons.mp hy with rfl | hy
      · exact le_refl _
      · exact hhead y hy

/-- The merged-and-sorted list `_find_next_outage` scans. -/
theorem mergeSort_facts (td tm : List OffInterval) :
    ((td ++ tm).mergeSort (fun a b => a.start ≤ b.start)).Pairwise
        (fun a b => a.start ≤ b.start) ∧
      ∀ iv, iv ∈ (td ++ tm).mergeSort (fun a b => a.start ≤ b.start) ↔
        iv ∈ td ++ tm := by
  constructor
  · have h := @List.sorted_mergeSort OffInterval
      (fun a b : OffInterval => decide (a.start ≤ b.start))
      (fun a b c h1 h2 => by
        simp only [decide_eq_true_eq] at *
        exact le_trans h1 h2)
      (fun a b => by
        simp only [Bool.or_eq_true, decide_eq_true_eq]
        exact le_total a.start b.start)
      (td ++ tm)
    refine List.Pairwise.imp ?_ h
    intro a b hab
    simpa using hab
  · intro iv
    exact (List.mergeSort_perm (td ++ tm) _).mem_iff

/-- Characterization: `_find_next_outage` returns `some s` exactly when
`s` is a start of one of the intervals, is strictly after `now`, and is
minimal among starts strictly after `now`. -/
theorem _find_next_outage_some_iff (now : Int) (td tm : List OffInterval) (s : Int) :
    _find_next_outage now td tm = some s ↔
      ((∃ iv ∈ td ++ tm, iv.start = s) ∧ now < s ∧
        ∀ iv ∈ td ++ tm, now < iv.start → s ≤ iv.start) := by
  obtain ⟨hsorted, hmem⟩ := mergeSort_facts td tm
  rw [show _find_next_outage now td tm =
    (((td ++ tm).mergeSort (fun a b => a.start ≤ b.start)).find?
      (fun it => now < it.start)).map (fun it => it.start) from rfl]
  constructor
  · intro h
    rw [Option.map_eq_some'] at h
    obtain ⟨iv0, hfind, hs⟩ := h
    have hp := List.find?_some hfind
    have hm : iv0 ∈ td ++ tm := (hmem iv0).mp (List.mem_of_find?_eq_some hfind)
    simp only [decide_eq_true_eq] at hp
    refine ⟨⟨iv0, hm, hs⟩, hs ▸ hp, ?_⟩
    intro iv hiv hlt
    have := sorted_find?_min _ _ iv0 hsorted hfind iv ((hmem iv).mpr hiv)
      (by simpa using hlt)
    exact hs ▸ this
  · rintro ⟨⟨ivw, hivw, hws⟩, hnow, hmin⟩
    have hex : ∃ iv, iv ∈ (td ++ tm).mergeSort (fun a b => a.start ≤ b.start) ∧
        (decide (now < iv.start)) = true := by
      exact ⟨ivw, (hmem ivw).mpr hivw, by simp [hws, hnow]⟩
    have hsome : ((td ++ tm).mergeSort (fun a b => a.start ≤ b.start)).find?
        (fun it => now < it.start) |>.isSome := by
      rw [List.find?_isSome]
      simpa using hex
    obtain ⟨iv0, hfind⟩ := Option.isSome_iff_exists.mp hsome
    have hp := List.find?_some hfind
    simp only [decide_eq_true_eq] at hp
    have hm0 : iv0 ∈ td ++ tm := (hmem iv0).mp (List.mem_of_find?_eq_some hfind)
    have hge : s ≤ iv0.start := hmin iv0 hm0 hp
    have hle : iv0.start ≤ ivw.start := sorted_find?_min _ _ iv0 hsorted hfind
      ivw ((hmem ivw).mpr hivw) (by simp [hws, hnow])
    rw [hfind]
    have : iv0.start = s := by omega
    simp [this]

/-- `_find_next_outage` returns nothing exactly when no interval starts
strictly after `now`. -/
theorem _find_next_outage_none_iff (now : Int) (td tm : List OffInterval) :
    _find_next_outage now td tm = none ↔
      ∀ iv ∈ td ++ tm, iv.start ≤ now := by
  obtain ⟨_, hmem⟩ := mergeSort_facts td tm
  rw [show _find_next_outage now td tm =
    (((td ++ tm).mergeSort (fun a b => a.start ≤ b.start)).find?
      (fun it => now < it.start)).map (fun it => it.start) from rfl]
  rw [Option.map_eq_none', List.find?_eq_none]
  constructor
  · intro h iv hiv
    have := h iv ((hmem iv).mpr hiv)
    simpa using this
  · intro h iv hiv
    have := h iv ((hmem iv).mp hiv)
    simpa using this

/-! ## Association-list lemmas for slot extraction -/

theorem alist_nil {β : Type} (k : String) : alist ([] : List (String × β)) k = none := rfl

theorem alist_cons {β : Type} (k' : String) (v : β) (rest : List (String × β))
    (k : String) :
    alist ((k', v) :: rest) k = if (k' == k) then some v else alist rest k := by
  simp only [alist, List.find?_cons]
  cases h : (k' == k : Bool)
  · simp [h]
  · simp [h]

theorem alist_eq_none_of_not_mem_keys {β : Type} :
    ∀ (l : List (String × β)) (k : String),
      k ∉ l.map Prod.fst → alist l k = none := by
  intro l
  induction l with
  | nil => intro k _; rfl
  | cons p rest ih =>
    intro k hk
    obtain ⟨k', v⟩ := p
    simp only [List.map_cons, List.mem_cons] at hk
    push_neg at hk
    rw [alist_cons, if_neg (by simpa [beq_iff_eq] using Ne.symm hk.1)]
    exact ih k hk.2

theorem keys_filterMap_subset (l : List (String × Option Int)) (k : String) :
    k ∈ (l.filterMap (fun p => p.2.map (fun i => (p.1, i)))).map Prod.fst →
      k ∈ l.map Prod.fst := by
  intro h
  rw [List.mem_map] at h
  obtain ⟨p, hp, hk⟩ := h
  rw [List.mem_filterMap] at hp
  obtain ⟨q, hq, hlift⟩ := hp
  rcases hv : q.2 with _ | i
  · rw [hv] at hlift
    exact absurd hlift (by simp)
  · rw [hv] at hlift
    simp at hlift
    rw [List.mem_map]
    exact ⟨q, hq, by rw [← hlift] at hk; exact hk⟩

/-- Lookup in the normalized map equals lookup in the raw day dict with
the failed `int(v)` conversions flattened away (keys of a Python dict are
unique, hence the `Nodup` hypothesis). -/
theorem alist_filterMap_norm :
    ∀ (l : List (String × Option Int)) (k : String),
      (l.map Prod.fst).Nodup →
      alist (l.filterMap (fun p => p.2.map (fun i => (p.1, i)))) k =
        (alist l k).bind id := by
  intro l
  induction l with
  | nil => intro k _; rfl
  | cons p rest ih =>
    intro k hnd
    obtain ⟨k', v⟩ := p
    simp only [List.map_cons, List.nodup_cons] at hnd
    rcases hv : v with _ | i
    · -- int(v) raises: entry dropped
      have hfm : (((k', (none : Option Int)) :: rest).filterMap
            (fun p => p.2.map (fun i => (p.1, i))))
          = rest.filterMap (fun p => p.2.map (fun i => (p.1, i))) := by
        simp
      rw [hfm]
      by_cases hk : (k' == k : Bool)
      · rw [alist_cons, if_pos hk]
        have hkk : k' = k := by simpa [beq_iff_eq] using hk
        subst hkk
        rw [alist_eq_none_of_not_mem_keys _ k'
          (fun hmem => hnd.1 (keys_filterMap_subset rest k' hmem))]
        rfl
      · rw [alist_cons, if_neg hk, ih k hnd.2]
    · have hfm : (((k', some i) :: rest).filterMap
            (fun p => p.2.map (fun i => (p.1, i))))
          = (k', i) :: rest.filterMap (fun p => p.2.map (fun i => (p.1, i))) := by
        simp
      rw [hfm]
      by_cases hk : (k' == k : Bool)
      · rw [alist_cons, if_pos hk, alist_cons, if_pos hk]
        rfl
      · rw [alist_cons, if_neg hk, alist_cons, if_neg hk, ih k hnd.2]

/-! ## The fingerprint serialization -/

theorem hhList_length : ∀ (n : Nat) (c : Int), (hhList c n).length = n := by
  intro n
  induction n with
  | zero => intro c; rfl
  | succ n ih => intro c; simp [hhList, ih]

theorem norm_unfold (d : Int) (ds : String) (s : SlotMap) :
    _slots_normalized_for_hash d ds s =
      joinBar ((hhList (dateToDt d) 48).map
        (fun t => ds ++ " " ++ timeStr t ++ "=" ++ intStr (eff s (timeStr t)))) := by
  unfold _slots_normalized_for_hash
  rw [_iter_half_hours_eq]

/-- The serialization of a day depends only on the effective statuses at
the 48 half-hour keys (order and physical presence of dict keys are
irrelevant). -/
theorem norm_congr (d : Int) (ds : String) (s s' : SlotMap)
    (h : ∀ k : Nat, k < 48 → eff s (keyStr k) = eff s' (keyStr k)) :
    _slots_normalized_for_hash d ds s = _slots_normalized_for_hash d ds s' := by
  rw [norm_unfold, norm_unfold]
  congr 1
  apply List.map_congr_left
  intro t ht
  rcases (mem_hhList 48 (dateToDt d) t).mp ht with ⟨k, hk, rfl⟩
  rw [timeStr_slot, h k hk]

theorem part_barFree (ds : String) (hds : barFree ds) (t : Int) (x : Int) :
    barFree (ds ++ " " ++ timeStr t ++ "=" ++ intStr x) := by
  refine barFree_append (barFree_append (barFree_append (barFree_append hds ?_)
    (barFree_timeStr t)) ?_) (barFree_intStr x)
  · show ('|' : Char) ∉ (" " : String).data; decide
  · show ('|' : Char) ∉ ("=" : String).data; decide

theorem string_append_cancel_left {a b c : String} (h : a ++ b = a ++ c) : b = c := by
  have hd := congrArg String.data h
  rw [String.data_append, String.data_append] at hd
  exact String.ext (List.append_cancel_left hd)

/-- The exact SHA-256 input determines the effective statuses of all 96
slots of the two days, provided the date strings contain no `"|"` (the
source guarantees this: they were parsed with `strptime("%Y-%m-%d")`). -/
theorem hash_input_inj (dT dM : Int) (dTStr dMStr : String)
    (sT sM sT' sM' : SlotMap) (hT : barFree dTStr) (hM : barFree dMStr)
    (h : _hash_input dT dTStr sT dM dMStr sM =
      _hash_input dT dTStr sT' dM dMStr sM') :
    (∀ k : Nat, k < 48 → eff sT (keyStr k) = eff sT' (keyStr k)) ∧
      (∀ k : Nat, k < 48 → eff sM (keyStr k) = eff sM' (keyStr k)) := by
  unfold _hash_input at h
  rw [norm_unfold, norm_unfold, norm_unfold, norm_unfold] at h
  set fT := fun t => dTStr ++ " " ++ timeStr t ++ "=" ++ intStr (eff sT (timeStr t)) with hfT
  set fT' := fun t => dTStr ++ " " ++ timeStr t ++ "=" ++ intStr (eff sT' (timeStr t)) with hfT'
  set fM := fun t => dMStr ++ " " ++ timeStr t ++ "=" ++ intStr (eff sM (timeStr t)) with hfM
  set fM' := fun t => dMStr ++ " " ++ timeStr t ++ "=" ++ intStr (eff sM' (timeStr t)) with hfM'
  have hne1 : (hhList (dateToDt dT) 48).map fT ≠ [] := by
    intro hcon
    have := congrArg List.length hcon
    simp [hhList_length] at this
  have hne2 : (hhList (dateToDt dM) 48).map fM ≠ [] := by
    intro hcon
    have := congrArg List.length hcon
    simp [hhList_length] at this
  have hne1' : (hhList (dateToDt dT) 48).map fT' ≠ [] := by
    intro hcon
    have := congrArg List.length hcon
    simp [hhList_length] at this
  have hne2' : (hhList (dateToDt dM) 48).map fM' ≠ [] := by
    intro hcon
    have := congrArg List.length hcon
    simp [hhList_length] at this
  rw [joinBar_doubleBar _ _ hne1 hne2, joinBar_doubleBar _ _ hne1' hne2'] at h
  have hparts : ((hhList (dateToDt dT) 48).map fT ++
      "" :: (hhList (dateToDt dM) 48).map fM) =
      ((hhList (dateToDt dT) 48).map fT' ++
        "" :: (hhList (dateToDt dM) 48).map fM') := by
    apply joinBar_inj _ _ (by simp [hhList_length]) ?_ ?_ h
    · intro p hp
      rcases List.mem_append.mp hp with hp | hp
      · rcases List.mem_map.mp hp with ⟨t, _, rfl⟩
        exact part_barFree dTStr hT t _
      · rcases List.mem_cons.mp hp with rfl | hp
        · show ('|' : Char) ∉ ("" : String).data; decide
        · rcases List.mem_map.mp hp with ⟨t, _, rfl⟩
          exact part_barFree dMStr hM t _
    · intro p hp
      rcases List.mem_append.mp hp with hp | hp
      · rcases List.mem_map.mp hp with ⟨t, _, rfl⟩
        exact part_barFree dTStr hT t _
      · rcases List.mem_cons.mp hp with rfl | hp
        · show ('|' : Char) ∉ ("" : String).data; decide
        · rcases List.mem_map.mp hp with ⟨t, _, rfl⟩
          exact part_barFree dMStr hM t _
  have hsplit := List.append_inj hparts (by simp [hhList_length])
  have hTparts : (hhList (dateToDt dT) 48).map fT =
      (hhList (dateToDt dT) 48).map fT' := hsplit.1
  have hMparts : (hhList (dateToDt dM) 48).map fM =
      (hhList (dateToDt dM) 48).map fM' := by
    have := hsplit.2
    injection this
  constructor
  · intro k hk
    have hmem : dateToDt dT + (k : Int) * HALF_HOUR ∈ hhList (dateToDt dT) 48 :=
      (mem_hhList 48 (dateToDt dT) _).mpr ⟨k, hk, rfl⟩
    have := List.map_inj_left.mp hTparts _ hmem
    rw [hfT, hfT'] at this
    simp only at this
    rw [timeStr_slot] at this
    exact intStr_injective (string_append_cancel_left this)
  · intro k hk
    have hmem : dateToDt dM + (k : Int) * HALF_HOUR ∈ hhList (dateToDt dM) 48 :=
      (mem_hhList 48 (dateToDt dM) _).mpr ⟨k, hk, rfl⟩
    have := List.map_inj_left.mp hMparts _ hmem
    rw [hfM, hfM'] at this
    simp only at this
    rw [timeStr_slot] at this
    exact intStr_injective (string_append_cancel_left this)

/-! ## Claim theorems -/

theorem hhList_getLast? : ∀ (n : Nat) (c : Int),
    (hhList c (n + 1)).getLast? = some (c + (n : Int) * HALF_HOUR) := by
  intro n
  induction n with
  | zero => intro c; simp [hhList]
  | succ n ih =>
    intro c
    show (c :: (c + HALF_HOUR) :: hhList (c + HALF_HOUR + HALF_HOUR) n).getLast? = _
    rw [List.getLast?_cons_cons]
    have := ih (c + HALF_HOUR)
    rw [show (c + HALF_HOUR) :: hhList (c + HALF_HOUR + HALF_HOUR) n =
      hhList (c + HALF_HOUR) (n + 1) from rfl, this]
    congr 1
    push_cast
    ring

theorem keyStr47 : keyStr 47 = "23:30" := by decide

/-- C1: for every date and SlotMap, if the walk over the 48 ordered
half-hour boundaries ends with the in-outage flag still set (the "23:30"
slot is off), `_slots_to_off_intervals` closes the last interval exactly
at the start of the next calendar day; in particular a SlotMap whose only
entry is `"23:30" = 2` yields exactly one interval from 23:30 to 00:00 of
the next day, with total minutes 30. -/
theorem C1_last_interval_closes_at_next_day_start :
    ∀ (d : Int) (slots : SlotMap),
      (eff slots "23:30" = 2 →
        ∃ R s, _slots_to_off_intervals d slots = R ++ [⟨s, dateToDt (d + 1)⟩]) ∧
      (_slots_to_off_intervals d [("23:30", 2)] =
          [⟨dateToDt d + 47 * HALF_HOUR, dateToDt (d + 1)⟩] ∧
        _total_minutes (_slots_to_off_intervals d [("23:30", 2)]) = 30) := by
  intro d slots
  have hmid : dateToDt (d + 1) = dateToDt d + DAY := by
    simp only [dateToDt]
    ring
  have hbase : _slots_to_off_intervals 0 [("23:30", 2)] =
      [⟨84600000000, 86400000000⟩] := by
    rw [_slots_to_off_intervals_eq]
    decide
  refine ⟨?_, ?_, ?_⟩
  · intro hoff
    rw [_slots_to_off_intervals_eq, hmid]
    have hlast : (hhList (dateToDt d) 48).getLast? =
        some (dateToDt d + ((47 : Nat) : Int) * HALF_HOUR) :=
      hhList_getLast? 47 (dateToDt d)
    apply offLoop_last_stop _ slots _ false none _ hlast
    rw [timeStr_slot d 47, keyStr47]
    simp [hoff]
  · rw [_slots_to_off_intervals_shift, hbase, hmid]
    simp only [List.map_cons, List.map_nil, List.cons.injEq, and_true]
    congr 1
    · simp only [dateToDt, HALF_HOUR, DAY]
      ring
    · simp only [dateToDt, DAY]
      ring
  · rw [_slots_to_off_intervals_shift, hbase]
    simp only [List.map_cons, List.map_nil]
    rw [_total_minutes_cons]
    have hgap : (86400000000 + d * DAY) - (84600000000 + d * DAY) =
        (1 : Int) * HALF_HOUR := by
      simp only [HALF_HOUR]
      ring
    show ((86400000000 + d * DAY) - (84600000000 + d * DAY)).fdiv MINUTE_US +
      _total_minutes [] = 30
    rw [hgap, fdiv_mul_half_hour]
    rfl

theorem C1_witness :
    (∃ R s, _slots_to_off_intervals 0 [("23:30", 2)] =
      R ++ [⟨s, dateToDt (0 + 1)⟩]) ∧
    _slots_to_off_intervals 0 [("23:30", 2)] =
      [⟨dateToDt 0 + 47 * HALF_HOUR, dateToDt (0 + 1)⟩] :=
  ⟨(C1_last_interval_closes_at_next_day_start 0 [("23:30", 2)]).1 (by decide),
    (C1_last_interval_closes_at_next_day_start 0 [("23:30", 2)]).2.1⟩

/-- C2 (amended): the total minutes of the derived intervals is a
non-negative multiple of 30 and equals 30 (not 1800) times the number of
off slots among the day's 48 half-hour keys. -/
theorem C2_total_minutes_30_per_off_slot :
    ∀ (d : Int) (slots : SlotMap),
      _total_minutes (_slots_to_off_intervals d slots) =
        30 * (offSlotCount d slots : Int) ∧
      0 ≤ _total_minutes (_slots_to_off_intervals d slots) ∧
      (30 : Int) ∣ _total_minutes (_slots_to_off_intervals d slots) := by
  intro d slots
  have h := (offLoop_minutes slots 48 (dateToDt d)).1
  have hde : dateToDt d + ((48 : Nat) : Int) * HALF_HOUR = dateToDt d + DAY := by
    rw [DAY_eq_48]
    push_cast
    ring
  rw [hde] at h
  have hmain : _total_minutes (_slots_to_off_intervals d slots) =
      30 * (offSlotCount d slots : Int) := by
    rw [_slots_to_off_intervals_eq, h]
    unfold offSlotCount
    rw [_iter_half_hours_eq]
  refine ⟨hmain, ?_, ?_⟩
  · rw [hmain]
    positivity
  · rw [hmain]
    exact Dvd.intro _ rfl

/-- C2 counterexample: on the SlotMap with the single off slot "23:30",
the total minutes is 30, the off-slot count is 1, and 30 ≠ 1800 × 1 — the
claimed factor 1800 is wrong (it is the per-slot figure in seconds, not
minutes). -/
theorem C2_factor_1800_counterexample :
    _total_minutes (_slots_to_off_intervals 0 [("23:30", 2)]) = 30 ∧
    offSlotCount 0 [("23:30", 2)] = 1 ∧
    _total_minutes (_slots_to_off_intervals 0 [("23:30", 2)]) ≠
      1800 * (offSlotCount 0 [("23:30", 2)] : Int) := by
  have h1 : _total_minutes (_slots_to_off_intervals 0 [("23:30", 2)]) = 30 := by
    rw [_slots_to_off_intervals_eq]
    decide
  have h2 : offSlotCount 0 [("23:30", 2)] = 1 := by
    unfold offSlotCount
    rw [_iter_half_hours_eq]
    decide
  refine ⟨h1, h2, ?_⟩
  rw [h1, h2]
  decide

/-- C3: `_find_next_outage` returns the start of the first interval, in
the merged list of both days sorted by ascending start, whose start is
strictly greater than `now` (equivalently: the minimal start strictly
after `now` among all intervals of both days — so an interval containing
`now` is never returned), and returns `none` rather than an error when no
interval starts after `now`. -/
theorem C3_next_outage_selection :
    ∀ (now : Int) (today_off tomorrow_off : List OffInterval),
      (∀ s : Int, _find_next_outage now today_off tomorrow_off = some s ↔
        ((∃ iv ∈ today_off ++ tomorrow_off, iv.start = s) ∧ now < s ∧
          ∀ iv ∈ today_off ++ tomorrow_off, now < iv.start → s ≤ iv.start)) ∧
      (_find_next_outage now today_off tomorrow_off = none ↔
        ∀ iv ∈ today_off ++ tomorrow_off, iv.start ≤ now) := by
  intro now td tm
  exact ⟨fun s => _find_next_outage_some_iff now td tm s,
    _find_next_outage_none_iff now td tm⟩

theorem C3_witness :
    _find_next_outage 30 [⟨40, 50⟩] [⟨35, 38⟩] = some 35 ∧
    _find_next_outage 30 [⟨10, 20⟩] [] = none := by
  constructor
  · exact ((C3_next_outage_selection 30 [⟨40, 50⟩] [⟨35, 38⟩]).1 35).mpr (by decide)
  · exact (C3_next_outage_selection 30 [⟨10, 20⟩] []).2.mpr (by decide)

theorem int_emod_eq_mod (a b : Int) : a.emod b = a % b := rfl

theorem round_down_spec (t : Int) :
    HALF_HOUR ∣ _round_down_to_half_hour t ∧ _round_down_to_half_hour t ≤ t ∧
      t < _round_down_to_half_hour t + HALF_HOUR := by
  unfold _round_down_to_half_hour
  rw [show HALF_HOUR = 1800000000 from by norm_num [HALF_HOUR]]
  simp only [int_emod_eq_mod]
  omega

theorem round_down_shift (d x : Int) :
    _round_down_to_half_hour (dateToDt d + x) =
      dateToDt d + _round_down_to_half_hour x := by
  unfold _round_down_to_half_hour dateToDt
  rw [show HALF_HOUR = 1800000000 from by norm_num [HALF_HOUR],
    show DAY = 86400000000 from by norm_num [DAY]]
  simp only [int_emod_eq_mod]
  omega

/-- C4: the current-power check rounds `now` down to its enclosing
half-hour boundary; inside the day span of `date_today` it reports power
on exactly when the effective status at that boundary (default 1) is 1;
outside the day span it reports power on; and `now` = 10:15 of the day
with slot "10:00" = 2 yields `False`. -/
theorem C4_is_now_has_power :
    ∀ (now d : Int) (slots : SlotMap),
      (HALF_HOUR ∣ _round_down_to_half_hour now ∧
        _round_down_to_half_hour now ≤ now ∧
        now < _round_down_to_half_hour now + HALF_HOUR) ∧
      ((dateToDt d ≤ _round_down_to_half_hour now ∧
          _round_down_to_half_hour now < dateToDt d + DAY) →
        (_is_now_has_power now d slots = true ↔
          eff slots (timeStr (_round_down_to_half_hour now)) = 1)) ∧
      (¬(dateToDt d ≤ _round_down_to_half_hour now ∧
          _round_down_to_half_hour now < dateToDt d + DAY) →
        _is_now_has_power now d slots = true) ∧
      _is_now_has_power (dateToDt d + (10 * HOUR_US + 15 * MINUTE_US)) d
        [("10:00", 2)] = false := by
  intro now d slots
  refine ⟨round_down_spec now, ?_, ?_, ?_⟩
  · intro hin
    simp only [_is_now_has_power]
    rw [if_pos hin]
    simp [beq_iff_eq]
  · intro hout
    simp only [_is_now_has_power]
    rw [if_neg hout]
  · have hr : _round_down_to_half_hour (dateToDt d + (10 * HOUR_US + 15 * MINUTE_US)) =
        dateToDt d + ((20 : Nat) : Int) * HALF_HOUR := by
      rw [round_down_shift]
      norm_num [_round_down_to_half_hour, HOUR_US, MINUTE_US, HALF_HOUR, Int.emod_emod_of_dvd]
    simp only [_is_now_has_power]
    rw [hr]
    have hcond : dateToDt d ≤ dateToDt d + ((20 : Nat) : Int) * HALF_HOUR ∧
        dateToDt d + ((20 : Nat) : Int) * HALF_HOUR < dateToDt d + DAY := by
      rw [show HALF_HOUR = 1800000000 from by norm_num [HALF_HOUR],
        show DAY = 86400000000 from by norm_num [DAY]]
      omega
    rw [if_pos hcond, timeStr_slot d 20]
    decide

theorem C4_witness :
    (HALF_HOUR ∣ _round_down_to_half_hour 12345) ∧
    _is_now_has_power 36900000000 0 [("10:00", 1)] = true ∧
    _is_now_has_power (dateToDt 0 + (10 * HOUR_US + 15 * MINUTE_US)) 0
      [("10:00", 2)] = false := by
  refine ⟨(C4_is_now_has_power 12345 0 []).1.1, ?_,
    (C4_is_now_has_power 0 0 []).2.2.2⟩
  exact ((C4_is_now_has_power 36900000000 0 [("10:00", 1)]).2.1
    (by decide)).mpr (by decide)

/-- C5: the fingerprint is canonical — two slot-map pairs whose effective
statuses (present value, defaulting to 1 when absent) agree at all 48
keys of each day produce the same `_hash_schedule` output for any digest
function, regardless of which keys are physically present or in what
order; and changing the effective status of any single one of the 96
combined slots changes the exact string fed to SHA-256 (hence the digest,
for any injective digest — collision-freeness of SHA-256 itself is not a
mathematical fact and is modelled by that hypothesis). -/
theorem C5_fingerprint_canonical_and_sensitive :
    ∀ (dT dM : Int) (dTStr dMStr : String) (sT sM sT' sM' : SlotMap),
      ((∀ k : Nat, k < 48 → eff sT (keyStr k) = eff sT' (keyStr k)) →
        (∀ k : Nat, k < 48 → eff sM (keyStr k) = eff sM' (keyStr k)) →
        ∀ digest : String → String,
          _hash_schedule digest dT dTStr sT dM dMStr sM =
            _hash_schedule digest dT dTStr sT' dM dMStr sM') ∧
      (barFree dTStr → barFree dMStr →
        ((∃ k : Nat, k < 48 ∧ eff sT (keyStr k) ≠ eff sT' (keyStr k)) ∨
          (∃ k : Nat, k < 48 ∧ eff sM (keyStr k) ≠ eff sM' (keyStr k))) →
        _hash_input dT dTStr sT dM dMStr sM ≠
            _hash_input dT dTStr sT' dM dMStr sM' ∧
          ∀ digest : String → String, Function.Injective digest →
            _hash_schedule digest dT dTStr sT dM dMStr sM ≠
              _hash_schedule digest dT dTStr sT' dM dMStr sM') := by
  intro dT dM dTStr dMStr sT sM sT' sM'
  constructor
  · intro hT hM digest
    unfold _hash_schedule _hash_input
    rw [norm_congr dT dTStr sT sT' hT, norm_congr dM dMStr sM sM' hM]
  · intro hbT hbM hdiff
    have hneq : _hash_input dT dTStr sT dM dMStr sM ≠
        _hash_input dT dTStr sT' dM dMStr sM' := by
      intro heq
      obtain ⟨hTeq, hMeq⟩ :=
        hash_input_inj dT dM dTStr dMStr sT sM sT' sM' hbT hbM heq
      rcases hdiff with ⟨k, hk, hne⟩ | ⟨k, hk, hne⟩
      · exact hne (hTeq k hk)
      · exact hne (hMeq k hk)
    refine ⟨hneq, ?_⟩
    intro digest hinj heq
    exact hneq (hinj heq)

theorem C5_witness :
    _hash_schedule id 0 "2026-02-11" [("10:00", 2)] 1 "2026-02-12" [] =
      _hash_schedule id 0 "2026-02-11" [("03:00", 1), ("10:00", 2)] 1
        "2026-02-12" [("07:30", 1)] ∧
    _hash_input 0 "2026-02-11" [("10:00", 2)] 1 "2026-02-12" [] ≠
      _hash_input 0 "2026-02-11" [] 1 "2026-02-12" [] := by
  constructor
  · exact (C5_fingerprint_canonical_and_sensitive 0 1 "2026-02-11" "2026-02-12"
      [("10:00", 2)] [] [("03:00", 1), ("10:00", 2)] [("07:30", 1)]).1
      (by decide) (by decide) id
  · exact ((C5_fingerprint_canonical_and_sensitive 0 1 "2026-02-11" "2026-02-12"
      [("10:00", 2)] [] [] []).2
      (by show ('|' : Char) ∉ ("2026-02-11" : String).data; decide)
      (by show ('|' : Char) ∉ ("2026-02-12" : String).data; decide)
      (Or.inl ⟨20, by decide, by decide⟩)).1

/-- C6: slot extraction errors exactly when no region block's `cpu`
matches the requested identifier (`RegionNotFound`); a found region with
a missing group or missing date yields the empty SlotMap rather than an
error; and entries whose value `int(v)` cannot convert are silently
dropped while convertible entries are kept — extraction itself is a total
function and never raises. -/
theorem C6_extraction_errors_and_defaults :
    ∀ (payload : Payload) (region_cpu group_name date_str : String),
      ((∃ e, _extract_region_block payload region_cpu = .error e) ↔
        ∀ r ∈ payload.regions, r.cpu ≠ some region_cpu) ∧
      (∀ rb : RegionBlock, alist rb.schedule group_name = none →
        _extract_slots rb group_name date_str = []) ∧
      (∀ (rb : RegionBlock) (gb : List (String × List (String × Option Int))),
        alist rb.schedule group_name = some gb → alist gb date_str = none →
        _extract_slots rb group_name date_str = []) ∧
      (∀ (rb : RegionBlock) (k : String),
        ((daySlots rb group_name date_str).map Prod.fst).Nodup →
        alist (_extract_slots rb group_name date_str) k =
          (alist (daySlots rb group_name date_str) k).bind id) := by
  intro payload region_cpu group_name date_str
  refine ⟨?_, ?_, ?_, ?_⟩
  · unfold _extract_region_block
    cases hf : payload.regions.find? (fun r => r.cpu == some region_cpu) with
    | none =>
      simp only [List.find?_eq_none] at hf
      constructor
      · intro _ r hr
        have := hf r hr
        simpa [beq_iff_eq] using this
      · intro _
        exact ⟨"Region " ++ region_cpu ++ " not found in API response", rfl⟩
    | some r =>
      constructor
      · rintro ⟨e, he⟩
        exact absurd he (by simp)
      · intro hall
        have hmem := List.mem_of_find?_eq_some hf
        have hp := List.find?_some hf
        exact absurd (by simpa [beq_iff_eq] using hp) (hall r hmem)
  · intro rb h
    unfold _extract_slots daySlots
    rw [h]
    simp [alist_nil]
  · intro rb gb hg hd
    unfold _extract_slots daySlots
    rw [hg]
    simp only [Option.getD_some]
    rw [hd]
    rfl
  · intro rb k hnd
    exact alist_filterMap_norm (daySlots rb group_name date_str) k hnd

theorem C6_witness :
    (∃ e, _extract_region_block ⟨none, none, []⟩ "r" = .error e) ∧
    _extract_slots ⟨some "dnipro",
      [("2.1", [("2026-02-11", [("10:00", some 2), ("23:00", none)])])],
      none⟩ "9.9" "2026-02-11" = [] ∧
    alist (_extract_slots ⟨some "dnipro",
      [("2.1", [("2026-02-11", [("10:00", some 2), ("23:00", none)])])],
      none⟩ "2.1" "2026-02-11") "23:00" =
      (alist (daySlots ⟨some "dnipro",
        [("2.1", [("2026-02-11", [("10:00", some 2), ("23:00", none)])])],
        none⟩ "2.1" "2026-02-11") "23:00").bind id := by
  refine ⟨?_, ?_, ?_⟩
  · exact (C6_extraction_errors_and_defaults ⟨none, none, []⟩ "r" "g" "d").1.mpr
      (by simp)
  · exact (C6_extraction_errors_and_defaults ⟨none, none, []⟩ "x" "9.9"
      "2026-02-11").2.1 _ (by decide)
  · exact (C6_extraction_errors_and_defaults ⟨none, none, []⟩ "x" "2.1"
      "2026-02-11").2.2.2 _ "23:00" (by decide)

/-- C7: a live (unexpired) cache entry is served as-is — the fetch
outcome is irrelevant (no network access) and the cache is returned
unchanged; and when a fetch does happen (miss or expired entry) and
fails, the `FeedUnavailable`-class error propagates unchanged and the
cache is left exactly as it was (no entry added, overwritten, or
partially updated). -/
theorem C7_cache_hit_and_failure :
    ∀ (now : Int) (cache : Cache) (region_cpu : String)
      (fetch_result : Except String Payload),
      (∀ (exp : Int) (payload : Payload),
        alist cache region_cpu = some (exp, payload) → now < exp →
        _fetch_raw now cache region_cpu fetch_result = (.ok payload, cache)) ∧
      ((alist cache region_cpu = none ∨
          ∃ (exp : Int) (payload : Payload),
            alist cache region_cpu = some (exp, payload) ∧ exp ≤ now) →
        ∀ e, fetch_result = .error e →
          _fetch_raw now cache region_cpu fetch_result = (.error e, cache)) := by
  intro now cache region_cpu fetch_result
  constructor
  · intro exp payload hc hlt
    simp only [_fetch_raw, hc]
    rw [if_pos hlt]
  · intro hmiss e hfr
    subst hfr
    rcases hmiss with hnone | ⟨exp, payload, hsome, hle⟩
    · simp only [_fetch_raw, hnone]
    · simp only [_fetch_raw, hsome]
      rw [if_neg (by omega)]

theorem C7_witness :
    _fetch_raw 100 [("r", (200, ⟨none, none, []⟩))] "r" (.error "fail") =
      (.ok ⟨none, none, []⟩, [("r", (200, ⟨none, none, []⟩))]) ∧
    _fetch_raw 300 [("r", (200, ⟨none, none, []⟩))] "r" (.error "fail") =
      (.error "fail", [("r", (200, ⟨none, none, []⟩))]) := by
  constructor
  · exact (C7_cache_hit_and_failure 100 [("r", (200, ⟨none, none, []⟩))] "r"
      (.error "fail")).1 200 ⟨none, none, []⟩ rfl (by decide)
  · exact (C7_cache_hit_and_failure 300 [("r", (200, ⟨none, none, []⟩))] "r"
      (.error "fail")).2 (Or.inr ⟨200, ⟨none, none, []⟩, rfl, by decide⟩) "fail" rfl

theorem ceil_intCast_div_natCast (s : Int) (n : Nat) :
    ⌈((s : ℚ)) / ((n : Nat) : ℚ)⌉ = -((-s) / (n : Int)) := by
  rw [show ((s : ℚ)) / ((n : Nat) : ℚ) = -(((-s : Int) : ℚ) / ((n : Nat) : ℚ)) by
    push_cast; ring]
  rw [Int.ceil_neg, Rat.floor_intCast_div_natCast]

/-- C8 (amended): for a next outage starting strictly after `now`, the
minutes-until value equals the duration from `now` to that start
truncated to whole seconds and then ceiling-rounded to whole minutes, and
is never negative; when the duration is a whole number of seconds (in
particular whenever `now` has no sub-second part, both instants being
microsecond-valued), this is exactly the ceiling of the duration in
minutes that the claim states. -/
theorem C8_minutes_until_ceiling :
    ∀ (now start : Int), now < start →
      next_outage_in_minutes now start =
        ⌈(((start - now).fdiv SECOND_US : Int) : ℚ) / ((60 : Nat) : ℚ)⌉ ∧
      0 ≤ next_outage_in_minutes now start ∧
      ((SECOND_US ∣ (start - now)) →
        next_outage_in_minutes now start =
          ⌈((start - now : Int) : ℚ) / ((60000000 : Nat) : ℚ)⌉) := by
  intro now start h
  have hΔ : 1 ≤ start - now := by omega
  refine ⟨?_, ?_, ?_⟩
  · unfold next_outage_in_minutes
    rw [ceil_intCast_div_natCast]
    rw [Int.fdiv_eq_ediv _ (by norm_num [MINUTE_US]),
      Int.fdiv_eq_ediv _ (by norm_num [SECOND_US])]
    simp only [SECOND_US, MINUTE_US]
    norm_num
    omega
  · unfold next_outage_in_minutes
    exact le_max_right _ _
  · intro hdvd
    unfold next_outage_in_minutes
    rw [ceil_intCast_div_natCast]
    rw [Int.fdiv_eq_ediv _ (by norm_num [MINUTE_US])]
    simp only [SECOND_US, MINUTE_US] at *
    norm_num
    omega

theorem C8_witness :
    next_outage_in_minutes 0 90000000 =
      ⌈(((90000000 : Int) - 0).fdiv SECOND_US : ℚ) / ((60 : Nat) : ℚ)⌉ ∧
    0 ≤ next_outage_in_minutes 0 90000000 := by
  refine ⟨?_, (C8_minutes_until_ceiling 0 90000000 (by decide)).2.1⟩
  exact (C8_minutes_until_ceiling 0 90000000 (by decide)).1

/-- C8 counterexample: with a duration of 60.5 seconds (`now` half a
second before a whole minute boundary from the next start), the code
computes 1 minute, while the ceiling of the duration in minutes is 2 —
so the value is not the ceiling of the duration whenever the duration has
a fractional-second part crossing a minute boundary. -/
theorem C8_fractional_second_counterexample :
    next_outage_in_minutes 3539500000 3600000000 = 1 ∧
    ⌈((3600000000 - 3539500000 : Int) : ℚ) / ((60000000 : Nat) : ℚ)⌉ = 2 ∧
    next_outage_in_minutes 3539500000 3600000000 ≠
      ⌈((3600000000 - 3539500000 : Int) : ℚ) / ((60000000 : Nat) : ℚ)⌉ := by
  have h1 : next_outage_in_minutes 3539500000 3600000000 = 1 := by decide
  have h2 : ⌈((3600000000 - 3539500000 : Int) : ℚ) / ((60000000 : Nat) : ℚ)⌉ = 2 := by
    rw [show ((3600000000 - 3539500000 : Int) : ℚ) = 60500000 by norm_num]
    rw [Int.ceil_eq_iff]
    constructor <;> norm_num
  exact ⟨h1, h2, by rw [h1, h2]; decide⟩

/-- C9: every derived interval satisfies start < stop; the sequence is
ordered by start, pairwise non-overlapping and maximally merged (each
interval's stop is strictly below the next interval's start); and off
slots at "10:00" and "10:30" between on slots at "09:30" and "11:00"
merge into the single interval 10:00–11:00. -/
theorem C9_interval_invariants :
    ∀ (d : Int) (slots : SlotMap),
      (_slots_to_off_intervals d slots).Pairwise (fun a b => a.stop < b.start) ∧
      (∀ iv ∈ _slots_to_off_intervals d slots, iv.start < iv.stop) ∧
      _slots_to_off_intervals d
          [("09:30", 1), ("10:00", 2), ("10:30", 2), ("11:00", 1)] =
        [⟨dateToDt d + 20 * HALF_HOUR, dateToDt d + 22 * HALF_HOUR⟩] := by
  intro d slots
  have hbnd : ∀ t ∈ hhList (dateToDt d) 48, t < dateToDt d + DAY := by
    intro t ht
    have h := (hhList_bounds 48 (dateToDt d) t ht).2
    rw [DAY_eq_48]
    push_cast at h
    linarith
  obtain ⟨P1, P2, _⟩ := offLoop_master (hhList (dateToDt d) 48) slots
    (dateToDt d + DAY) false none (hhList_pairwise 48 _) hbnd (by simp)
  refine ⟨?_, ?_, ?_⟩
  · rw [_slots_to_off_intervals_eq]
    exact P1
  · rw [_slots_to_off_intervals_eq]
    exact P2
  · have hbase : _slots_to_off_intervals 0
        [("09:30", 1), ("10:00", 2), ("10:30", 2), ("11:00", 1)] =
        [⟨36000000000, 39600000000⟩] := by
      rw [_slots_to_off_intervals_eq]
      decide
    rw [_slots_to_off_intervals_shift, hbase]
    simp only [List.map_cons, List.map_nil, List.cons.injEq, and_true]
    congr 1
    · simp only [dateToDt, HALF_HOUR, DAY]
      ring
    · simp only [dateToDt, HALF_HOUR, DAY]
      ring

theorem C9_witness :
    (_slots_to_off_intervals 0
      [("09:30", 1), ("10:00", 2), ("10:30", 2), ("11:00", 1)]).Pairwise
        (fun a b => a.stop < b.start) ∧
    _slots_to_off_intervals 0
        [("09:30", 1), ("10:00", 2), ("10:30", 2), ("11:00", 1)] =
      [⟨dateToDt 0 + 20 * HALF_HOUR, dateToDt 0 + 22 * HALF_HOUR⟩] :=
  ⟨(C9_interval_invariants 0
      [("09:30", 1), ("10:00", 2), ("10:30", 2), ("11:00", 1)]).1,
    (C9_interval_invariants 0 []).2.2⟩

/-- C10: when `now` lies inside an outage that spans midnight (today's
interval list ends with an interval closing at next-day 00:00 containing
`now`, and tomorrow's "00:00" slot is off), `_find_next_outage` reports
tomorrow's 00:00 — the continuation of the ongoing outage — as the "next"
outage start. -/
theorem C10_midnight_spanning_outage :
    ∀ (d : Int) (slots_today slots_tomorrow : SlotMap) (now : Int),
      eff slots_tomorrow "00:00" = 2 →
      (∃ iv ∈ _slots_to_off_intervals d slots_today,
        iv.start ≤ now ∧ now < iv.stop ∧ iv.stop = dateToDt (d + 1)) →
      _find_next_outage now (_slots_to_off_intervals d slots_today)
          (_slots_to_off_intervals (d + 1) slots_tomorrow) =
        some (dateToDt (d + 1)) := by
  intro d sT sM now h00 hcont
  obtain ⟨ivc, hivc, hs1, hs2, hs3⟩ := hcont
  have hmid : dateToDt (d + 1) = dateToDt d + DAY := by
    simp only [dateToDt]
    ring
  -- facts about today's intervals
  have hbndT : ∀ t ∈ hhList (dateToDt d) 48, t < dateToDt d + DAY := by
    intro t ht
    have h := (hhList_bounds 48 (dateToDt d) t ht).2
    rw [DAY_eq_48]
    push_cast at h
    linarith
  obtain ⟨PT1, PT2, PT3⟩ := offLoop_master (hhList (dateToDt d) 48) sT
    (dateToDt d + DAY) false none (hhList_pairwise 48 _) hbndT (by simp)
  -- facts about tomorrow's intervals
  obtain ⟨_, _, PM3⟩ := offLoop_master (hhList (dateToDt (d + 1)) 48) sM
    (dateToDt (d + 1) + DAY) false none (hhList_pairwise 48 _)
    (by
      intro t ht
      have h := (hhList_bounds 48 (dateToDt (d + 1)) t ht).2
      rw [DAY_eq_48]
      push_cast at h
      linarith)
    (by simp)
  -- tomorrow's first interval opens at 00:00 of tomorrow
  have ht0 : timeStr (dateToDt (d + 1)) = "00:00" := by
    have h := timeStr_slot (d + 1) 0
    rw [show keyStr 0 = "00:00" from by decide] at h
    simpa using h
  have hcons48 : hhList (dateToDt (d + 1)) 48 =
      dateToDt (d + 1) :: hhList (dateToDt (d + 1) + HALF_HOUR) 47 := rfl
  have hbit0 : (eff sM (timeStr (dateToDt (d + 1))) == 2 : Bool) = true := by
    rw [ht0]
    simp [h00]
  have hrest_ne : hhList (dateToDt (d + 1) + HALF_HOUR) 47 ≠ [] := by
    intro hcon
    have := congrArg List.length hcon
    simp [hhList_length] at this
  obtain ⟨e, R, hR⟩ := offLoop_head_off (hhList (dateToDt (d + 1) + HALF_HOUR) 47)
    sM (dateToDt (d + 1) + DAY) (dateToDt (d + 1)) hrest_ne
  have htm : offLoop sM (dateToDt (d + 1) + DAY) (hhList (dateToDt (d + 1)) 48)
      false none = ⟨dateToDt (d + 1), e⟩ :: R := by
    rw [hcons48, offLoop_cons, hbit0]
    have hne : ((hhList (dateToDt (d + 1) + HALF_HOUR) 47).isEmpty) = false := by
      cases hc : hhList (dateToDt (d + 1) + HALF_HOUR) 47 with
      | nil => exact absurd hc hrest_ne
      | cons a l => rfl
    simp only [hne]
    rw [if_neg (show ¬(false = true) by simp)]
    exact hR
  rw [_slots_to_off_intervals_eq] at hivc ⊢
  rw [_slots_to_off_intervals_eq (d + 1), htm]
  rw [_find_next_outage_some_iff]
  refine ⟨⟨⟨dateToDt (d + 1), e⟩, ?_, rfl⟩, ?_, ?_⟩
  · exact List.mem_append.mpr (Or.inr (List.mem_cons_self _ _))
  · omega
  · intro iv hiv hlt
    rcases List.mem_append.mp hiv with hiv | hiv
    · -- no today interval starts after now
      exfalso
      by_cases hiveq : iv = ivc
      · subst hiveq
        omega
      · have hsym : Symmetric (fun a b : OffInterval =>
            a.stop < b.start ∨ b.stop < a.start) := by
          intro a b hab
          exact hab.symm
        have hpw' : (offLoop sT (dateToDt d + DAY) (hhList (dateToDt d) 48)
            false none).Pairwise (fun a b => a.stop < b.start ∨ b.stop < a.start) :=
          PT1.imp Or.inl
        have hrel := hpw'.forall hsym hiv hivc hiveq
        rcases hrel with hrel | hrel
        · have := PT2 iv hiv
          omega
        · -- ivc.stop < iv.start, but today's starts lie before next midnight
          obtain ⟨hstart, _⟩ := PT3 iv hiv
          rcases hstart with hstart | hstart
          · have hb := (hhList_bounds 48 (dateToDt d) iv.start hstart).2
            rw [DAY_eq_48] at hmid
            push_cast at hb
            omega
          · exact absurd hstart (by simp)
    · -- tomorrow's intervals all start at or after next midnight
      obtain ⟨hstart, _⟩ := PM3 iv (by rw [htm]; exact hiv)
      rcases hstart with hstart | hstart
      · have hb := (hhList_bounds 48 (dateToDt (d + 1)) iv.start hstart).1
        omega
      · exact absurd hstart (by simp)

theorem C10_witness :
    _find_next_outage 85500000000 (_slots_to_off_intervals 0 [("23:30", 2)])
      (_slots_to_off_intervals (0 + 1) [("00:00", 2)]) = some (dateToDt (0 + 1)) := by
  apply C10_midnight_spanning_outage 0 [("23:30", 2)] [("00:00", 2)] 85500000000
    (by decide)
  refine ⟨⟨84600000000, 86400000000⟩, ?_, by decide, by decide, by decide⟩
  rw [_slots_to_off_intervals_eq]
  decide
